import Mathlib

/-
Verification of the entity-resolution, batched-retrieval and ranking core of
the entsearch-ai-backend services.

The JavaScript sources are shallowly embedded:
  * strings are lists of characters (`Str`), case folding is `Char.toLower` /
    `Char.toUpper` applied pointwise, `String.prototype.includes` is `strHas`;
  * `getCIKFromCompanyOrTicker` from sec-finance.js becomes
    `getCIKFromCompanyOrTicker`, with the reference-table fetch modelled as an
    `Except` value, the module-level `companyCache` passed explicitly, and a
    ghost counter recording how many full-table scans a call performs;
  * the older resolver in sharepoint-search.js becomes `getCIKsp`;
  * `fetchFilingsFromSECByCIK` becomes `fetchFilingsFromSECByCIK` over an
    abstract upstream returning `Except Unit (Option SECRecord)` (error =
    network failure, `none` = missing `filings.recent` shape);
  * the window loop of `fetchLatestFilingsByForm` becomes `fetchWindows`
    (with a ghost count of the batch windows issued), and the final
    sort-and-truncate uses `List.insertionSort`, a stable sort like the
    ECMAScript `Array.prototype.sort`;
  * keyword extraction and candidate ranking from sharepoint-search.js become
    `extractKeywordsArray`, `countKeywordPresence` and `rankCandidates`.
-/

namespace EntSearch

/-! ## Text primitives -/

/-- JavaScript strings, modelled as lists of characters. -/
abbrev Str := List Char

/-- Pointwise lower-casing, the model of `String.prototype.toLowerCase`. -/
def lcs (s : Str) : Str := s.map Char.toLower

/-- Pointwise upper-casing, the model of `String.prototype.toUpperCase`. -/
def ucs (s : Str) : Str := s.map Char.toUpper

/-- Whitespace test used by `trimL`. -/
def isSpaceChar (c : Char) : Bool := c.isWhitespace

/-- Model of `String.prototype.trim`: drop whitespace at both ends. -/
def trimL (s : Str) : Str :=
  ((s.dropWhile isSpaceChar).reverse.dropWhile isSpaceChar).reverse

/-- `strStarts needle hay` holds when `needle` is an initial segment of `hay`. -/
def strStarts : Str → Str → Bool
  | [], _ => true
  | _ :: _, [] => false
  | a :: as, b :: bs => a == b && strStarts as bs

/-- Model of `hay.includes(needle)`: `needle` occurs contiguously in `hay`. -/
def strHas (hay needle : Str) : Bool :=
  match hay with
  | [] => needle.isEmpty
  | _ :: t => strStarts needle hay || strHas t needle

theorem strHas_nil_needle (l : Str) : strHas l [] = true := by
  induction l with
  | nil => rfl
  | cons h t ih => simp [strHas, strStarts]

theorem strStarts_append {kw a : Str} (b : Str) (h : strStarts kw a = true) :
    strStarts kw (a ++ b) = true := by
  induction kw generalizing a with
  | nil => rfl
  | cons c cs ih =>
    cases a with
    | nil => simp [strStarts] at h
    | cons x xs =>
      simp only [strStarts, Bool.and_eq_true] at h
      simp [strStarts, h.1, ih h.2]

theorem strHas_append_left {a kw : Str} (b : Str) (h : strHas a kw = true) :
    strHas (a ++ b) kw = true := by
  induction a with
  | nil =>
    simp [strHas] at h
    subst h
    exact strHas_nil_needle b
  | cons x xs ih =>
    simp only [strHas, Bool.or_eq_true] at h
    rcases h with h | h
    · simp only [List.cons_append, strHas, Bool.or_eq_true]
      exact Or.inl (strStarts_append _ h)
    · simp only [List.cons_append, strHas, Bool.or_eq_true]
      exact Or.inr (ih h)

theorem strHas_take {l kw : Str} (n : Nat) (h : strHas (l.take n) kw = true) :
    strHas l kw = true := by
  have := strHas_append_left (l.drop n) h
  rwa [List.take_append_drop] at this

/-! ## Identifier resolution (sec-finance.js `getCIKFromCompanyOrTicker`) -/

/-- One row of the SEC company/ticker reference table, with the three columns
the resolver reads (`cik`, `name`, `ticker`) already located by field name. -/
structure RefRow where
  cik : Nat
  name : Str
  ticker : Str
deriving DecidableEq, Repr

/-- Model of `row[cikIndex].toString().padStart(10, "0")`. -/
def padCIK (n : Nat) : Str :=
  List.replicate (10 - (Nat.repr n).length) '0' ++ (Nat.repr n).toList

/-- JavaScript truthiness of an optional string: present and non-empty. -/
def jsTruthy (o : Option Str) : Bool :=
  match o with
  | none => false
  | some s => !s.isEmpty

/-- Model of `(name || ticker || "")`: the first truthy operand, else `""`. -/
def jsOr (a b : Option Str) : Str :=
  if jsTruthy a then a.getD [] else if jsTruthy b then b.getD [] else []

/-- Cache key computed at sec-finance.js:33:
`(name || ticker || "").toLowerCase()` — note: name first, and no trim. -/
def resolveKey (name ticker : Option Str) : Str := lcs (jsOr name ticker)

/-- The in-memory `companyCache`: association list from lookup key to the
stored resolution result (`none` is the memoized "not found" value). -/
abbrev Cache := List (Str × Option Str)

/-- Model of `companyCache.has(key)` / `companyCache.get(key)` combined:
`none` when the key is absent, `some v` when `v` is stored. -/
def cacheGet (c : Cache) (k : Str) : Option (Option Str) :=
  (c.find? (fun p => p.1 == k)).map Prod.snd

/-- Model of `companyCache.set(key, v)`. -/
def cacheSet (c : Cache) (k : Str) (v : Option Str) : Cache := (k, v) :: c

theorem cacheGet_set_self (c : Cache) (k : Str) (v : Option Str) :
    cacheGet (cacheSet c k v) k = some v := by
  simp [cacheGet, cacheSet, List.find?]

/-- The row scan of sec-finance.js:48-58: an exact ticker match returns at
once; a name match (equality or substring) overwrites the running `bestMatch`
and scanning continues. After the loop the last `bestMatch` (if any) wins. -/
def resolveScan (sn st : Option Str) : List RefRow → Option RefRow → Option Str
  | [], best => best.map (fun r => padCIK r.cik)
  | row :: rest, best =>
    if jsTruthy st = true ∧ some (lcs row.ticker) = st then
      some (padCIK row.cik)
    else
      resolveScan sn st rest
        (if jsTruthy sn = true ∧
            (some (lcs row.name) = sn ∨ strHas (lcs row.name) (sn.getD []) = true)
         then some row else best)

/-- Result of one resolver call: the value returned to the caller, the cache
after the call, and a ghost count of full-table scans performed. -/
structure ResolveResult where
  res : Option Str
  cache : Cache
  scans : Nat
deriving DecidableEq, Repr

/-- Model of sec-finance.js `getCIKFromCompanyOrTicker`. The reference-table
fetch is `table : Except Unit (List RefRow)`; on a cache hit the cached value
is returned unchanged, on a fetch error the `catch` returns `null` without
touching the cache, and a completed scan stores its result (possibly `null`)
under the lookup key before returning it. -/
def getCIKFromCompanyOrTicker (table : Except Unit (List RefRow)) (cache : Cache)
    (name ticker : Option Str) : ResolveResult :=
  let key := resolveKey name ticker
  match cacheGet cache key with
  | some v => ⟨v, cache, 0⟩
  | none =>
    match table with
    | Except.error _ => ⟨none, cache, 0⟩
    | Except.ok rows =>
      let sn := name.map (fun s => trimL (lcs s))
      let st := ticker.map (fun s => trimL (lcs s))
      let r := resolveScan sn st rows none
      ⟨r, cacheSet cache key r, 1⟩

/-! ## The older resolver (sharepoint-search.js `getCIKFromCompanyOrTicker`) -/

/-- Row scan of sharepoint-search.js:293-299: the first row satisfying either
the name-substring test or the exact-ticker test is returned immediately. -/
def spScan (sn st : Option Str) : List RefRow → Option Str
  | [] => none
  | row :: rest =>
    if (jsTruthy sn = true ∧ strHas (lcs row.name) (sn.getD []) = true) ∨
        (jsTruthy st = true ∧ some (lcs row.ticker) = st) then
      some (padCIK row.cik)
    else
      spScan sn st rest

/-- Model of the sharepoint-search.js resolver (no cache in that variant). -/
def getCIKsp (rows : List RefRow) (name ticker : Option Str) : Option Str :=
  spScan (name.map (fun s => trimL (lcs s))) (ticker.map (fun s => trimL (lcs s))) rows

/-! ## Keyword extraction and candidate ranking (sharepoint-search.js) -/

/-- Word character of the regular expression class used by the extractor:
ASCII letters, digits and underscore. -/
def isWordChar (c : Char) : Bool := c.isAlphanum || c == '_'

/-- Maximal runs of word characters of a string, the model of matching the
pattern of 3-or-more word characters globally (length filtering is applied by
the caller). The first argument accumulates the current run, reversed. -/
def wordRuns : Str → Str → List Str
  | acc, [] => if acc.isEmpty then [] else [acc.reverse]
  | acc, c :: cs =>
    if isWordChar c then wordRuns (c :: acc) cs
    else if acc.isEmpty then wordRuns [] cs
    else acc.reverse :: wordRuns [] cs

/-- Stop-word set of `extractKeywordsArray`. -/
def stopWords : List Str :=
  ["the", "is", "are", "am", "was", "were", "a", "an", "and", "or", "for",
   "to", "of", "in", "on", "at", "by", "with", "from", "that", "this", "it",
   "as", "be", "been", "being", "if", "then", "else", "what", "which", "who",
   "when", "where", "how", "why", "please", "give", "some", "details",
   "here"].map String.toList

/-- Model of `extractKeywordsArray`: lower-case the query, keep the maximal
word-character runs of length at least 3, drop stop words. No deduplication
is performed. -/
def extractKeywordsArray (query : String) : List Str :=
  (wordRuns [] (lcs query.toList)).filter
    (fun w => decide (3 ≤ w.length) && !(stopWords.contains w))

/-- Model of `countKeywordPresence`: with a non-empty text and keyword list,
count the keyword-list entries that occur in the lower-cased text. -/
def countKeywordPresence (text : Str) (keywords : List Str) : Nat :=
  if text.isEmpty || keywords.isEmpty then 0
  else (keywords.filter (fun kw => strHas (lcs text) kw)).length

/-- One SharePoint candidate, with `content` the full text that the preview
fetch `getFileTextContent` would extract for it. -/
structure SPFile where
  name : Str
  content : Str
deriving DecidableEq, Repr

/-- A candidate after scoring. -/
structure Ranked where
  name : Str
  content : Str
  nameMatches : Nat
  contentMatches : Nat
  score : Nat
deriving DecidableEq, Repr

/-- Sort key of step 5 of the handler: descending score. -/
def rankScore (a b : Ranked) : Prop := b.score ≤ a.score

instance : DecidableRel rankScore := fun a b => Nat.decLe b.score a.score

instance : IsTotal Ranked rankScore :=
  ⟨fun a b => Or.symm (Nat.le_total a.score b.score)⟩

instance : IsTrans Ranked rankScore :=
  ⟨fun _ _ _ hab hbc => Nat.le_trans hbc hab⟩

/-- Step 3 of the handler: score by file name only, content not yet fetched. -/
def scorePhase1 (keywords : List Str) (f : SPFile) : Ranked :=
  let nm := countKeywordPresence (lcs f.name) keywords
  ⟨f.name, f.content, nm, 0, nm * 3⟩

/-- Step 4 of the handler: fetch a preview of at most `budget` characters and
recompute the combined score. Both branches of the handler use this same
formula and differ only in the preview budget. -/
def scoreWithPreview (keywords : List Str) (budget : Nat) (r : Ranked) : Ranked :=
  let cm := countKeywordPresence (r.content.take budget) keywords
  ⟨r.name, r.content, r.nameMatches, cm, r.nameMatches * 3 + cm * 1⟩

/-- Model of the ranking pass of the `/sharepoint-query` handler: name-based
scoring, preview budget selection (8000 characters when some file name
matched, 20000 otherwise), content rescoring, stable sort by descending
score. -/
def rankCandidates (keywords : List Str) (cands : List SPFile) : List Ranked :=
  let phase1 := cands.map (scorePhase1 keywords)
  let anyNameMatch := phase1.any (fun c => decide (0 < c.nameMatches))
  let budget := if anyNameMatch then 8000 else 20000
  let scored := phase1.map (scoreWithPreview keywords budget)
  List.insertionSort rankScore scored

/-! ## Filings: per-entity fetch and batched aggregation (sec-finance.js) -/

/-- One SEC filing as assembled by `fetchFilingsFromSECByCIK`. -/
structure Filing where
  cik : String
  companyName : String
  ticker : String
  accessionNumber : String
  filingDate : Nat
  form : String
  primaryDocument : String
deriving DecidableEq, Repr

/-- The dedup key string of the aggregation loop. -/
def keyStr (f : Filing) : String := f.cik ++ "-" ++ f.accessionNumber

/-- Sort key of the aggregator: descending filing date. The date strings of
the source are modelled by their chronological index. -/
def filingGE (a b : Filing) : Prop := b.filingDate ≤ a.filingDate

instance : DecidableRel filingGE := fun a b => Nat.decLe b.filingDate a.filingDate

instance : IsTotal Filing filingGE :=
  ⟨fun a b => Or.symm (Nat.le_total a.filingDate b.filingDate)⟩

instance : IsTrans Filing filingGE :=
  ⟨fun _ _ _ hab hbc => Nat.le_trans hbc hab⟩

/-- The `filings.recent` shape of one entity record: parallel arrays indexed
alike, plus the company display name of the record. -/
structure SECRecord where
  name : String
  accessionNumber : List String
  filingDate : List Nat
  form : List String
  primaryDocument : List String
deriving DecidableEq, Repr

/-- Model of the form filter test: pass when the filter is absent or empty
(falsy), or when the upper-cased form contains the upper-cased filter. -/
def formPasses (formFilter : Option String) (form : String) : Bool :=
  match formFilter with
  | none => true
  | some ff => if ff = "" then true else strHas (ucs form.toList) (ucs ff.toList)

/-- The index loop of `fetchFilingsFromSECByCIK`: scan indices `0` to
`min(recent.accessionNumber.length, limit)` exclusive, keep the entries whose
form passes the filter. -/
def buildFilings (cik companyName ticker : String) (rec : SECRecord)
    (limit : Nat) (formFilter : Option String) : List Filing :=
  (List.range (min rec.accessionNumber.length limit)).filterMap (fun i =>
    let form := rec.form.getD i ""
    if formPasses formFilter form then
      some ⟨cik, companyName, ticker, rec.accessionNumber.getD i "",
            rec.filingDate.getD i 0, form, rec.primaryDocument.getD i ""⟩
    else none)

/-- Model of `fetchFilingsFromSECByCIK`: a failed upstream fetch is caught and
yields `[]`; a record without the `filings.recent` shape yields `[]`; the
ticker backfill (its own try/catch) is abstracted as `tickerOf`. -/
def fetchFilingsFromSECByCIK (upstream : String → Except Unit (Option SECRecord))
    (tickerOf : String → String) (cik : String) (limit : Nat)
    (formFilter : Option String) : List Filing :=
  match upstream cik with
  | Except.error _ => []
  | Except.ok none => []
  | Except.ok (some rec) => buildFilings cik rec.name (tickerOf cik) rec limit formFilter

/-- Replace the upstream answer for one entity. -/
def overrideAt (upstream : String → Except Unit (Option SECRecord)) (e : String)
    (v : Except Unit (Option SECRecord)) : String → Except Unit (Option SECRecord) :=
  fun c => if c = e then v else upstream c

/-- Consecutive windows of five entities, the model of
`ciks.slice(i, i + BATCH_SIZE)` with `BATCH_SIZE = 5`. -/
def chunks5 : List String → List (List String)
  | [] => []
  | [a] => [[a]]
  | [a, b] => [[a, b]]
  | [a, b, c] => [[a, b, c]]
  | [a, b, c, d] => [[a, b, c, d]]
  | a :: b :: c :: d :: e :: rest => [a, b, c, d, e] :: chunks5 rest

/-- Innermost consumption loop of `fetchLatestFilingsByForm`: push each filing
whose dedup key is new, and stop as soon as the budget is reached (the check
runs right after each push, not at window boundaries). -/
def consumeArr (limit : Nat) : List Filing → List Filing → List Filing
  | collected, [] => collected
  | collected, f :: rest =>
    if collected.any (fun x => keyStr x == keyStr f) then
      consumeArr limit collected rest
    else
      let c2 := collected ++ [f]
      if limit ≤ c2.length then c2 else consumeArr limit c2 rest

/-- Per-window consumption: empty per-entity results are skipped, and the
budget is rechecked after each per-entity list. -/
def consumeWindow (limit : Nat) : List Filing → List (List Filing) → List Filing
  | collected, [] => collected
  | collected, arr :: rest =>
    if arr.isEmpty then consumeWindow limit collected rest
    else
      let c2 := consumeArr limit collected arr
      if limit ≤ c2.length then c2 else consumeWindow limit c2 rest

/-- The window loop of `fetchLatestFilingsByForm`: a window is issued only
while entities remain and the budget is unmet. The second component is a
ghost count of the windows actually issued. -/
def fetchWindows (fetch : String → List Filing) (limit : Nat) :
    List (List String) → List Filing → List Filing × Nat
  | [], collected => (collected, 0)
  | batch :: rest, collected =>
    if limit ≤ collected.length then (collected, 0)
    else
      let c2 := consumeWindow limit collected (batch.map fetch)
      let p := fetchWindows fetch limit rest c2
      (p.1, p.2 + 1)

/-- Model of `fetchLatestFilingsByForm` downstream of the reference-table
fetch: window the entity universe by five, collect deduplicated filings under
the budget, then sort by descending filing date and truncate to `limit`. The
per-entity fetch is a parameter; the source instantiates it with
`fetchFilingsFromSECByCIK cik 10 formFilter`. -/
def fetchLatestFilingsByForm (fetch : String → List Filing) (limit : Nat)
    (ciks : List String) : List Filing × Nat :=
  let p := fetchWindows fetch limit (chunks5 ciks) []
  ((List.insertionSort filingGE p.1).take limit, p.2)

/-! ## Claim C1: exact-ticker priority in `resolve` -/

/-- C1 (amended): in the sec-finance.js resolver scan, whenever the search
ticker is non-empty and some row's ticker equals it exactly, the scan returns
the CIK of such a row, regardless of where it sits relative to any
name-matching rows and of the running best-match accumulator. -/
theorem resolveScan_ticker_first (sn : Option Str) (st : Str) (hst : st ≠ [])
    (rows : List RefRow) (best : Option RefRow)
    (h : ∃ r ∈ rows, lcs r.ticker = st) :
    ∃ r ∈ rows, lcs r.ticker = st ∧
      resolveScan sn (some st) rows best = some (padCIK r.cik) := by
  have ht : jsTruthy (some st) = true := by
    cases st with
    | nil => exact absurd rfl hst
    | cons c cs => rfl
  induction rows generalizing best with
  | nil =>
    rcases h with ⟨r, hr, _⟩
    exact absurd hr (List.not_mem_nil r)
  | cons row rest ih =>
    by_cases hc : lcs row.ticker = st
    · refine ⟨row, List.mem_cons_self _ _, hc, ?_⟩
      simp [resolveScan, ht, hc]
    · rcases h with ⟨r, hr, hrt⟩
      rcases List.mem_cons.mp hr with hre | hr2
      · exact absurd (hre ▸ hrt) hc
      · obtain ⟨r2, hr2m, hrt2, heq⟩ := ih
          (if jsTruthy sn = true ∧
              (some (lcs row.name) = sn ∨ strHas (lcs row.name) (sn.getD []) = true)
           then some row else best)
          ⟨r, hr2, hrt⟩
        refine ⟨r2, List.mem_cons_of_mem _ hr2m, hrt2, ?_⟩
        rw [resolveScan, if_neg (by simp [hc])]
        exact heq

/-- Reference table exhibiting the C1 counterexample: a name-substring match
in row 0 and the exact-ticker row only at position 1. -/
def exRowsC1 : List RefRow :=
  [⟨1, "alphacorp".toList, "zzz".toList⟩, ⟨2, "beta".toList, "aaa".toList⟩]

/-- C1 counterexample: the sharepoint-search.js resolver, given the ticker
"aaa" whose exact match is row 1 (CIK 2), returns the CIK of row 0, which
only matches by name substring — an exact ticker match anywhere in the table
does not take priority in that variant. -/
theorem getCIKsp_name_beats_ticker :
    getCIKsp exRowsC1 (some "alpha".toList) (some "aaa".toList) = some (padCIK 1) ∧
    (∃ r ∈ exRowsC1, lcs r.ticker = trimL (lcs "aaa".toList) ∧ r.cik = 2) ∧
    padCIK 1 ≠ padCIK 2 := by decide

/-- Witness for `resolveScan_ticker_first` on the same table: the sec-finance
scan does return the CIK of the exact-ticker row. -/
theorem resolveScan_ticker_first_witness :
    ∃ r ∈ exRowsC1, lcs r.ticker = "aaa".toList ∧
      resolveScan (some "alpha".toList) (some "aaa".toList) exRowsC1 none =
        some (padCIK r.cik) :=
  resolveScan_ticker_first (some "alpha".toList) "aaa".toList (by decide) exRowsC1 none
    ⟨⟨2, "beta".toList, "aaa".toList⟩, by decide, by decide⟩

/-! ## Claim C3: idempotence of `resolve` with respect to the cache -/

/-- C3: with a fixed successfully fetched reference table, two consecutive
resolver calls with the same inputs return the same value (a memoized `null`
included), the second call never scans, and the two calls together perform at
most one full-table scan. -/
theorem resolve_idempotent (T : List RefRow) (cache : Cache)
    (name ticker : Option Str) :
    (getCIKFromCompanyOrTicker (Except.ok T)
        (getCIKFromCompanyOrTicker (Except.ok T) cache name ticker).cache
        name ticker).res =
      (getCIKFromCompanyOrTicker (Except.ok T) cache name ticker).res ∧
    (getCIKFromCompanyOrTicker (Except.ok T)
        (getCIKFromCompanyOrTicker (Except.ok T) cache name ticker).cache
        name ticker).scans = 0 ∧
    (getCIKFromCompanyOrTicker (Except.ok T) cache name ticker).scans +
      (getCIKFromCompanyOrTicker (Except.ok T)
          (getCIKFromCompanyOrTicker (Except.ok T) cache name ticker).cache
          name ticker).scans ≤ 1 := by
  cases h : cacheGet cache (resolveKey name ticker) with
  | some v => simp [getCIKFromCompanyOrTicker, h]
  | none => simp [getCIKFromCompanyOrTicker, h, cacheGet_set_self]

/-! ## Claim C4: the cache lookup key -/

/-- C4 counterexample: with name " Apple " and ticker "AAPL" both supplied,
the lookup key is the lower-cased, untrimmed name " apple ", not the
lower-cased trimmed ticker "aapl"; the scan result is cached under that name
key. -/
theorem resolveKey_untrimmed_name_first :
    resolveKey (some " Apple ".toList) (some "AAPL".toList) = " apple ".toList ∧
    resolveKey (some " Apple ".toList) (some "AAPL".toList) ≠ lcs (trimL "AAPL".toList) ∧
    (getCIKFromCompanyOrTicker (Except.ok []) []
        (some " Apple ".toList) (some "AAPL".toList)).cache =
      [(" apple ".toList, none)] := by decide

/-- C4 (amended): the cache lookup key is the lower-cased untrimmed name
whenever a non-empty name is supplied, and the lower-cased untrimmed ticker
only when no name is supplied; a cache hit under that key is returned without
scanning and without touching the cache. -/
theorem resolveKey_name_precedence (n t : Str) (hn : n ≠ []) (ht : t ≠ [])
    (cache : Cache) (table : Except Unit (List RefRow)) :
    resolveKey (some n) (some t) = lcs n ∧
    resolveKey none (some t) = lcs t ∧
    (∀ v, cacheGet cache (resolveKey (some n) (some t)) = some v →
      getCIKFromCompanyOrTicker table cache (some n) (some t) = ⟨v, cache, 0⟩) := by
  have hn2 : jsTruthy (some n) = true := by
    cases n with
    | nil => exact absurd rfl hn
    | cons c cs => rfl
  have ht2 : jsTruthy (some t) = true := by
    cases t with
    | nil => exact absurd rfl ht
    | cons c cs => rfl
  have h0 : jsTruthy (none : Option Str) = false := rfl
  refine ⟨by simp [resolveKey, jsOr, hn2], by simp [resolveKey, jsOr, h0, ht2], ?_⟩
  intro v hv
  simp [getCIKFromCompanyOrTicker, hv]

/-- Witness for `resolveKey_name_precedence` at concrete inputs with a cache
hit stored under the name key. -/
theorem resolveKey_name_precedence_witness :
    resolveKey (some "Apple".toList) (some "AAPL".toList) = lcs "Apple".toList ∧
    resolveKey none (some "AAPL".toList) = lcs "AAPL".toList ∧
    (∀ v, cacheGet [("apple".toList, (none : Option Str))]
        (resolveKey (some "Apple".toList) (some "AAPL".toList)) = some v →
      getCIKFromCompanyOrTicker (Except.ok []) [("apple".toList, none)]
          (some "Apple".toList) (some "AAPL".toList) =
        ⟨v, [("apple".toList, none)], 0⟩) :=
  resolveKey_name_precedence "Apple".toList "AAPL".toList (by decide) (by decide) _ _

/-! ## Claim C9: a failed table fetch writes nothing to the cache -/

/-- C9: when the lookup key misses the cache and the reference-table fetch
fails, the resolver returns `null`, performs no scan and leaves the cache
unchanged; a subsequent call with a successfully fetched table therefore
performs a full scan instead of being served a memoized `null`. -/
theorem resolve_error_leaves_cache (cache : Cache) (name ticker : Option Str)
    (T : List RefRow) (h : cacheGet cache (resolveKey name ticker) = none) :
    getCIKFromCompanyOrTicker (Except.error ()) cache name ticker = ⟨none, cache, 0⟩ ∧
    (getCIKFromCompanyOrTicker (Except.ok T) cache name ticker).scans = 1 := by
  simp [getCIKFromCompanyOrTicker, h]

/-- Witness for `resolve_error_leaves_cache` at a concrete empty cache. -/
theorem resolve_error_leaves_cache_witness :
    getCIKFromCompanyOrTicker (Except.error ()) [] (some "apple".toList) none =
      ⟨none, [], 0⟩ ∧
    (getCIKFromCompanyOrTicker (Except.ok []) [] (some "apple".toList) none).scans = 1 :=
  resolve_error_leaves_cache [] (some "apple".toList) none [] (by decide)

/-! ## Claim C2: the aggregation is deduplicated, sorted, bounded -/

theorem consumeArr_nodup (limit : Nat) (arr : List Filing) :
    ∀ collected : List Filing, (collected.map keyStr).Nodup →
      ((consumeArr limit collected arr).map keyStr).Nodup := by
  induction arr with
  | nil => intro collected h; simpa [consumeArr] using h
  | cons f rest ih =>
    intro collected h
    rw [consumeArr]
    by_cases hdup : collected.any (fun x => keyStr x == keyStr f) = true
    · rw [if_pos hdup]; exact ih collected h
    · rw [if_neg hdup]
      have hnotin : keyStr f ∉ collected.map keyStr := by
        rw [Bool.not_eq_true, List.any_eq_false] at hdup
        intro hmem
        rcases List.mem_map.mp hmem with ⟨x, hx, hEq⟩
        exact hdup x hx (by simp [hEq])
      have h2 : ((collected ++ [f]).map keyStr).Nodup := by
        rw [List.map_append]
        refine List.Nodup.append h (List.nodup_singleton _) ?_
        intro x hx hy
        simp only [List.map_cons, List.map_nil, List.mem_singleton] at hy
        subst hy
        exact hnotin hx
      by_cases hlim : limit ≤ collected.length + 1
      · simpa [hlim] using h2
      · simpa [hlim] using ih (collected ++ [f]) h2

theorem consumeWindow_nodup (limit : Nat) (arrs : List (List Filing)) :
    ∀ collected : List Filing, (collected.map keyStr).Nodup →
      ((consumeWindow limit collected arrs).map keyStr).Nodup := by
  induction arrs with
  | nil => intro collected h; simpa [consumeWindow] using h
  | cons arr rest ih =>
    intro collected h
    rw [consumeWindow]
    by_cases he : arr.isEmpty = true
    · rw [if_pos he]; exact ih collected h
    · rw [if_neg he]
      by_cases hlim : limit ≤ (consumeArr limit collected arr).length
      · simpa [hlim] using consumeArr_nodup limit arr collected h
      · simpa [hlim] using ih _ (consumeArr_nodup limit arr collected h)

theorem fetchWindows_nodup (fetch : String → List Filing) (limit : Nat)
    (batches : List (List String)) :
    ∀ collected : List Filing, (collected.map keyStr).Nodup →
      (((fetchWindows fetch limit batches collected).1).map keyStr).Nodup := by
  induction batches with
  | nil => intro collected h; simpa [fetchWindows] using h
  | cons batch rest ih =>
    intro collected h
    rw [fetchWindows]
    by_cases hlim : limit ≤ collected.length
    · simpa [hlim] using h
    · simpa [hlim] using ih _ (consumeWindow_nodup limit (batch.map fetch) collected h)

/-- C2: for every per-entity fetch function, entity universe and limit, the
aggregation of `fetchLatestFilingsByForm` returns a list with no two filings
sharing the `(cik, accessionNumber)` pair, sorted by descending filing date,
of length at most `limit`. -/
theorem aggregate_dedup_sorted_bounded (fetch : String → List Filing)
    (limit : Nat) (ciks : List String) :
    List.Pairwise
        (fun a b : Filing => ¬(a.cik = b.cik ∧ a.accessionNumber = b.accessionNumber))
        (fetchLatestFilingsByForm fetch limit ciks).1 ∧
    List.Pairwise (fun a b : Filing => b.filingDate ≤ a.filingDate)
        (fetchLatestFilingsByForm fetch limit ciks).1 ∧
    (fetchLatestFilingsByForm fetch limit ciks).1.length ≤ limit := by
  have hc : ((fetchWindows fetch limit (chunks5 ciks) []).1.map keyStr).Nodup :=
    fetchWindows_nodup fetch limit (chunks5 ciks) [] (by simp)
  have hout : (fetchLatestFilingsByForm fetch limit ciks).1 =
      (List.insertionSort filingGE (fetchWindows fetch limit (chunks5 ciks) []).1).take limit := rfl
  rw [hout]
  refine ⟨?_, ?_, ?_⟩
  · have hperm : (List.insertionSort filingGE
        (fetchWindows fetch limit (chunks5 ciks) []).1).Perm
        (fetchWindows fetch limit (chunks5 ciks) []).1 :=
      List.perm_insertionSort filingGE _
    have hsorted : ((List.insertionSort filingGE
        (fetchWindows fetch limit (chunks5 ciks) []).1).map keyStr).Nodup :=
      ((hperm.map keyStr).nodup_iff).mpr hc
    have htake : (((List.insertionSort filingGE
        (fetchWindows fetch limit (chunks5 ciks) []).1).take limit).map keyStr).Nodup := by
      rw [List.map_take]
      exact hsorted.sublist (List.take_sublist _ _)
    rw [List.Nodup, List.pairwise_map] at htake
    refine htake.imp ?_
    intro a b hne hab
    exact hne (by simp [keyStr, hab.1, hab.2])
  · have hs : List.Pairwise filingGE (List.insertionSort filingGE
        (fetchWindows fetch limit (chunks5 ciks) []).1) :=
      List.sorted_insertionSort filingGE _
    exact hs.sublist (List.take_sublist _ _)
  · rw [List.length_take]
    exact Nat.min_le_left _ _

/-! ## Claim C5: early termination of the window loop -/

/-- Entity universe of the concrete early-termination scenario: 12 CIKs. -/
def exCiks : List String := (List.range 12).map (fun i => Nat.repr i)

/-- One distinct filing per entity. -/
def exFiling (c : String) : Filing := ⟨c, "", "", c, 0, "", ""⟩

/-- Per-entity fetch of the scenario: each entity yields one filing. -/
def exFetch (c : String) : List Filing := [exFiling c]

/-- C5: no new window is issued once the collected, deduplicated results
reach the budget (first conjunct); within a window the budget check runs
right after each consumed result, cutting the per-entity list short (second
conjunct); and in the concrete scenario with batch size 5, 12 entities and
limit 3, exactly one window of the three available is issued. -/
theorem batch_early_termination :
    (∀ (fetch : String → List Filing) (limit : Nat)
        (batches : List (List String)) (collected : List Filing),
      limit ≤ collected.length → fetchWindows fetch limit batches collected = (collected, 0)) ∧
    (∀ (limit : Nat) (collected : List Filing) (f : Filing) (rest : List Filing),
      collected.any (fun x => keyStr x == keyStr f) = false →
      limit ≤ collected.length + 1 →
      consumeArr limit collected (f :: rest) = collected ++ [f]) ∧
    (fetchLatestFilingsByForm exFetch 3 exCiks).2 = 1 ∧
    (chunks5 exCiks).length = 3 := by
  refine ⟨?_, ?_, by decide, by decide⟩
  · intro fetch limit batches collected h
    cases batches with
    | nil => rfl
    | cons b rest => rw [fetchWindows, if_pos h]
  · intro limit collected f rest hdup hlim
    rw [consumeArr, if_neg (by simp [hdup])]
    simp only []
    rw [if_pos (by simpa using hlim)]

/-- Witness for `batch_early_termination` at a concrete saturated state. -/
theorem batch_early_termination_witness :
    fetchWindows exFetch 1 (chunks5 exCiks) [exFiling "z"] = ([exFiling "z"], 0) :=
  batch_early_termination.1 exFetch 1 (chunks5 exCiks) [exFiling "z"] (by decide)

/-! ## Claim C8: a failed per-entity fetch does not abort the batch -/

/-- C8: an upstream failure for one entity is caught inside the per-entity
fetch, which returns the empty filing list for that entity, and the batched
aggregation behaves exactly as if that entity had zero results — the other
entities are processed unchanged. -/
theorem fetch_failure_isolated (upstream : String → Except Unit (Option SECRecord))
    (tickerOf : String → String) (limit : Nat) (formFilter : Option String)
    (ciks : List String) (e : String) :
    fetchFilingsFromSECByCIK (overrideAt upstream e (Except.error ())) tickerOf e 10
        formFilter = [] ∧
    fetchLatestFilingsByForm
        (fun c => fetchFilingsFromSECByCIK (overrideAt upstream e (Except.error ()))
          tickerOf c 10 formFilter) limit ciks =
      fetchLatestFilingsByForm
        (fun c => fetchFilingsFromSECByCIK (overrideAt upstream e (Except.ok none))
          tickerOf c 10 formFilter) limit ciks := by
  constructor
  · simp [fetchFilingsFromSECByCIK, overrideAt]
  · have hfun : (fun c => fetchFilingsFromSECByCIK (overrideAt upstream e (Except.error ()))
        tickerOf c 10 formFilter)
        = (fun c => fetchFilingsFromSECByCIK (overrideAt upstream e (Except.ok none))
          tickerOf c 10 formFilter) := by
      funext c
      by_cases hc : c = e
      · subst hc; simp [fetchFilingsFromSECByCIK, overrideAt]
      · simp [fetchFilingsFromSECByCIK, overrideAt, hc]
    rw [hfun]

/-! ## Claim C10: the per-entity limit bounds the scanned window, not matches -/

/-- Truncation of an entity record to its first `limit` filing slots. -/
def truncRecord (rec : SECRecord) (limit : Nat) : SECRecord :=
  ⟨rec.name, rec.accessionNumber.take limit, rec.filingDate.take limit,
   rec.form.take limit, rec.primaryDocument.take limit⟩

theorem getD_take_of_lt {α} (l : List α) (n i : Nat) (d : α) (h : i < n) :
    (l.take n).getD i d = l.getD i d := by
  simp [List.getD, List.getElem?_take, h]

/-- Record of the concrete C10 scenario: three filings, with the only "10-K"
at index 2, beyond a window of `limit = 2`. -/
def exRecC10 : SECRecord :=
  ⟨"X", ["a1", "a2", "a3"], [1, 2, 3], ["8-K", "8-K", "10-K"], ["p", "p", "p"]⟩

/-- C10: the per-entity fetch reads only the first `min(totalFilings, limit)`
slots of the parallel arrays (truncating the record there changes nothing),
returns at most that many filings, and with a form filter it can return no
filings at all even though a matching form sits just beyond the window. -/
theorem per_entity_limit_window :
    (∀ (cik cn tk : String) (rec : SECRecord) (limit : Nat) (ff : Option String),
      buildFilings cik cn tk (truncRecord rec limit) limit ff =
        buildFilings cik cn tk rec limit ff) ∧
    (∀ (cik cn tk : String) (rec : SECRecord) (limit : Nat) (ff : Option String),
      (buildFilings cik cn tk rec limit ff).length ≤ min rec.accessionNumber.length limit) ∧
    (buildFilings "c" "n" "t" exRecC10 2 (some "10-K") = [] ∧
      formPasses (some "10-K") (exRecC10.form.getD 2 "") = true ∧
      buildFilings "c" "n" "t" exRecC10 3 (some "10-K") ≠ []) := by
  refine ⟨?_, ?_, by decide⟩
  · intro cik cn tk rec limit ff
    unfold buildFilings truncRecord
    have hlen : min (rec.accessionNumber.take limit).length limit =
        min rec.accessionNumber.length limit := by
      rw [List.length_take]; omega
    simp only [hlen]
    apply List.filterMap_congr
    intro i hi
    have hilim : i < limit :=
      Nat.lt_of_lt_of_le (List.mem_range.mp hi) (Nat.min_le_right _ _)
    simp only [getD_take_of_lt _ _ _ _ hilim]
  · intro cik cn tk rec limit ff
    calc (buildFilings cik cn tk rec limit ff).length
        ≤ (List.range (min rec.accessionNumber.length limit)).length :=
          List.length_filterMap_le _ _
      _ = min rec.accessionNumber.length limit := List.length_range _

/-! ## Claim C6: the ranking score formula -/

theorem countKw_take_zero (content : Str) (keywords : List Str) (b : Nat)
    (h : countKeywordPresence content keywords = 0) :
    countKeywordPresence (content.take b) keywords = 0 := by
  unfold countKeywordPresence
  split
  · rfl
  · rename_i hguard
    simp only [Bool.or_eq_true, not_or, Bool.not_eq_true] at hguard
    obtain ⟨hg1, hg2⟩ := hguard
    have hcne : content.isEmpty = false := by
      cases content with
      | nil => simp at hg1
      | cons x xs => rfl
    rw [List.length_eq_zero, List.filter_eq_nil_iff]
    intro kw hkw hstr
    have h2 : strHas (lcs content) kw = true := by
      have hmt : lcs (content.take b) = (lcs content).take b := by
        simp [lcs, List.map_take]
      rw [hmt] at hstr
      exact strHas_take b hstr
    unfold countKeywordPresence at h
    rw [if_neg (by simp [hcne, hg2])] at h
    rw [List.length_eq_zero, List.filter_eq_nil_iff] at h
    exact h kw hkw h2

theorem rank_mem_shape (keywords : List Str) (B : Nat) (cands : List SPFile)
    (rc : Ranked)
    (h : rc ∈ (cands.map (scorePhase1 keywords)).map (scoreWithPreview keywords B)) :
    rc.score = 3 * rc.nameMatches + rc.contentMatches ∧
    (countKeywordPresence (lcs rc.name) keywords = 0 →
      countKeywordPresence rc.content keywords = 0 → rc.score = 0) := by
  rw [List.map_map] at h
  obtain ⟨f, hf, hrc⟩ := List.mem_map.mp h
  subst hrc
  simp only [Function.comp_apply, scoreWithPreview, scorePhase1]
  constructor
  · omega
  · intro h1 h2
    rw [h1, countKw_take_zero f.content keywords B h2]

/-- C6: every candidate emitted by the ranking pass satisfies
`score = 3 * nameMatches + contentMatches` exactly, and a candidate in which
no keyword is counted in the (lower-cased) name nor anywhere in its content
(hence not in the content preview either) has score 0. -/
theorem rank_score_formula (keywords : List Str) (cands : List SPFile)
    (rc : Ranked) (h : rc ∈ rankCandidates keywords cands) :
    rc.score = 3 * rc.nameMatches + rc.contentMatches ∧
    (countKeywordPresence (lcs rc.name) keywords = 0 →
      countKeywordPresence rc.content keywords = 0 → rc.score = 0) := by
  simp only [rankCandidates] at h
  exact rank_mem_shape keywords _ cands rc
    ((List.perm_insertionSort rankScore _).subset h)

/-- Witness for `rank_score_formula`: a single zero-hit candidate. -/
theorem rank_score_formula_witness :
    (⟨"misc".toList, "nothing".toList, 0, 0, 0⟩ : Ranked).score =
      3 * (⟨"misc".toList, "nothing".toList, 0, 0, 0⟩ : Ranked).nameMatches +
        (⟨"misc".toList, "nothing".toList, 0, 0, 0⟩ : Ranked).contentMatches ∧
    (countKeywordPresence (lcs (⟨"misc".toList, "nothing".toList, 0, 0, 0⟩ : Ranked).name)
        ["budget".toList] = 0 →
      countKeywordPresence (⟨"misc".toList, "nothing".toList, 0, 0, 0⟩ : Ranked).content
        ["budget".toList] = 0 →
      (⟨"misc".toList, "nothing".toList, 0, 0, 0⟩ : Ranked).score = 0) :=
  rank_score_formula ["budget".toList] [⟨"misc".toList, "nothing".toList⟩]
    ⟨"misc".toList, "nothing".toList, 0, 0, 0⟩ (by decide)

/-! ## Claim C7: keyword counts and multiplicity -/

/-- C7 counterexample: the extractor does not deduplicate, so the query
"budget budget report" yields the keyword list [budget, budget, report], and
a candidate name containing "budget" counts 2 — although only one distinct
keyword occurs in it. -/
theorem keyword_double_count :
    extractKeywordsArray "budget budget report" =
      ["budget".toList, "budget".toList, "report".toList] ∧
    countKeywordPresence "budget plan".toList
        (extractKeywordsArray "budget budget report") = 2 ∧
    ((extractKeywordsArray "budget budget report").dedup.filter
        (fun kw => strHas (lcs "budget plan".toList) kw)).length = 1 := by decide

/-- C7 (amended): the match counters count keyword-list entries with
multiplicity — each occurrence of a keyword in the extracted list contributes
1 when it is a case-insensitive substring of the text, so a word repeated in
the query contributes once per repetition. -/
theorem countKeywordPresence_multiset (text : Str) (kw : Str) (kws : List Str)
    (h : text ≠ []) :
    countKeywordPresence text (kw :: kws) =
      (if strHas (lcs text) kw = true then 1 else 0) + countKeywordPresence text kws := by
  have hne : text.isEmpty = false := by
    cases text with
    | nil => exact absurd rfl h
    | cons c cs => rfl
  unfold countKeywordPresence
  cases kws with
  | nil =>
    simp [hne, List.filter_cons]
    split <;> simp
  | cons k2 rest =>
    simp [hne, List.filter_cons]
    split <;> simp [Nat.add_comm]

/-- Witness for `countKeywordPresence_multiset` at a concrete text. -/
theorem countKeywordPresence_multiset_witness :
    countKeywordPresence "abc".toList ["abc".toList] =
      (if strHas (lcs "abc".toList) "abc".toList = true then 1 else 0) +
        countKeywordPresence "abc".toList [] :=
  countKeywordPresence_multiset "abc".toList "abc".toList [] (by decide)
